import Mathlib

/-!
Shallow embedding of the knowledge-base ingestion-and-labeling pipeline
(`src/index.ts`) together with proofs about its behaviour.

The pipeline's external collaborators (content store, blob store, the
summarize / extract / label AI capabilities) are modelled as explicit
inputs: the data they would return is passed in as ordinary values or
oracle functions.  JavaScript runtime primitives used by the source
(`Array.prototype.sort`, `Map`, `Object.fromEntries`, `String.split`,
`JSON.stringify` / `JSON.parse` on the record shape this program writes)
are modelled faithfully to their ECMAScript semantics.
-/

namespace KbPipeline

/-- Constant `MAX_CATEGORIES = 250` from src/index.ts line 9. -/
def MAX_CATEGORIES : Nat := 250

/-- Constant `MAX_FILES_TO_PROCESS = 100` from src/index.ts line 10. -/
def MAX_FILES_TO_PROCESS : Nat := 100

/-! ### Association-list model of JavaScript `Map` and plain objects

The in-memory cache `fileContentCache` is a JS `Map<string, string>`:
iteration order is insertion order, `set` on an existing key updates the
value in place (keeping the key's position), `set` on a fresh key appends.
We model it as an insertion-ordered association list. -/

/-- A key is present in the map (JS `Map.has`). -/
def containsKey (m : List (String × String)) (k : String) : Prop :=
  k ∈ m.map Prod.fst

instance (m : List (String × String)) (k : String) : Decidable (containsKey m k) :=
  inferInstanceAs (Decidable (k ∈ m.map Prod.fst))

/-- Lookup of the first entry with the given key (JS `Map.get`). -/
def lookupKey (k : String) : List (String × String) → Option String
  | [] => none
  | (k', v) :: rest => if k' = k then some v else lookupKey k rest

/-- JS `Map.set` / object property assignment: update in place if the key is
present (keeping its position), otherwise append a new entry. -/
def mapSet : List (String × String) → String → String → List (String × String)
  | [], k, v => [(k, v)]
  | (k', v') :: rest, k, v =>
    if k' = k then (k, v) :: rest else (k', v') :: mapSet rest k v

/-- JS `Object.fromEntries`: build an object by assigning each pair in order;
a repeated key keeps its first position but takes the last value. -/
def fromEntries (l : List (String × String)) : List (String × String) :=
  l.foldl (fun acc kv => mapSet acc kv.1 kv.2) []

/-- Lookup of the last entry with the given key (the value a repeated key ends
up with after `Object.fromEntries`). -/
def lookupLast (k : String) (l : List (String × String)) : Option String :=
  lookupKey k l.reverse

/-! ### Document Assembler (src/index.ts lines 92-99)

`client.list.filePassages(...).collect()` returns the passages; the source
then runs `x.sort((a, b) => (a.meta?.position ?? 0) - (b.meta?.position ?? 0))`
and joins the contents with `"\n"`.  `Array.prototype.sort` is stable
(ECMAScript 2019+) and the numeric comparator orders by
`meta.position ?? 0` ascending, so the call is exactly a stable ascending
sort by that key; we model it with Mathlib's stable `insertionSort`. -/

/-- A knowledge-base passage: `content` plus the optional `meta.position`. -/
structure Passage where
  content : String
  position : Option Int
deriving Repr, DecidableEq

/-- Sort key of a passage: `meta?.position ?? 0`. -/
def passageKey (p : Passage) : Int :=
  p.position.getD 0

/-- The order imposed by the comparator `(a.meta?.position ?? 0) - (b.meta?.position ?? 0)`. -/
def passageLE (a b : Passage) : Prop :=
  passageKey a ≤ passageKey b

instance : DecidableRel passageLE := fun a b =>
  inferInstanceAs (Decidable (passageKey a ≤ passageKey b))

instance : IsTotal Passage passageLE :=
  ⟨fun a b => Int.le_total (passageKey a) (passageKey b)⟩

instance : IsTrans Passage passageLE :=
  ⟨fun _ _ _ hab hbc => Int.le_trans hab hbc⟩

/-- The stable ascending sort performed by
`x.sort((a, b) => (a.meta?.position ?? 0) - (b.meta?.position ?? 0))`. -/
def sortPassages (ps : List Passage) : List Passage :=
  ps.insertionSort passageLE

/-- Document assembly: sort the passages and join their contents with a single
newline (`x.map((p) => p.content).join("\n")`). -/
def assembleContent (ps : List Passage) : String :=
  String.intercalate "\n" ((sortPassages ps).map (·.content))

/-! ### Category Synthesizer (src/index.ts lines 113-138)

`zai.summarize` and `zai.extract` are opaque capabilities; the extraction
result (a list of `{ name }` records) is passed in as data.  The source
post-processes it with `.map((x) => x.name.trim()).filter(Boolean)`. -/

/-- One `{ name: string }` record as produced by `zai.extract`. -/
structure CategoryRec where
  name : String
deriving Repr, DecidableEq

/-- Whitespace for JS `String.prototype.trim` (the characters relevant here). -/
def isJsSpace (c : Char) : Bool :=
  c = ' ' || c = '\t' || c = '\n' || c = '\r' || c.toNat = 11 || c.toNat = 12

/-- JS `String.prototype.trim`: strip leading and trailing whitespace. -/
def jsTrim (s : String) : String :=
  ⟨((s.data.dropWhile isJsSpace).reverse.dropWhile isJsSpace).reverse⟩

/-- Post-processing of the extraction result in `generateListOfCategories`:
`categoriesAsArray.map((x) => x.name.trim()).filter(Boolean)`.  A JS string
is falsy exactly when it is empty.  There is no truncation step in the
source: the list is returned as-is. -/
def generateListOfCategories (categoriesAsArray : List CategoryRec) : List String :=
  (categoriesAsArray.map (fun x => jsTrim x.name)).filter (fun s => !s.isEmpty)

/-! ### Slug sanitization (src/index.ts lines 142-145)

`x.replace(/[^A-Za-z0-9]/g, "_").replace(/_+/g, "_")`: first every
non-alphanumeric character becomes `_`, then every run of `_` collapses to
a single `_`. -/

/-- One step of `x.replace(/[^A-Za-z0-9]/g, "_")` on a single character. -/
def replChar (c : Char) : Char :=
  if c.isAlphanum then c else '_'

/-- Collapse runs of underscores (`.replace(/_+/g, "_")`).  The flag records
whether the previously emitted character was an underscore. -/
def collapseU : Bool → List Char → List Char
  | _, [] => []
  | prevU, c :: rest =>
    if c = '_' then
      if prevU then collapseU true rest else '_' :: collapseU true rest
    else c :: collapseU false rest

/-- The slug of a category name:
`x.replace(/[^A-Za-z0-9]/g, "_").replace(/_+/g, "_")`. -/
def slugify (s : String) : String :=
  ⟨collapseU false (s.data.map replChar)⟩

/-! ### Labeling Driver (src/index.ts lines 140-162)

For every cached `(key, content)` pair the source builds the candidate list
`labels = categories.map((x) => [slug(x), x])`, calls
`zai.label(content, Object.fromEntries(labels), ...)` (an opaque capability,
modelled as an oracle), and — guarded by `labels.length > 0` — calls
`client.updateFileMetadata({ id: key, metadata: { categories: labels } })`.
The model returns the list of metadata writes performed, in order: each
write is the pair of the id passed (the cache key) and the value stored
under the `categories` metadata key. -/

/-- The candidate `(slug, name)` list built from the categories. -/
def candidateLabels (categories : List String) : List (String × String) :=
  categories.map (fun x => (slugify x, x))

/-- The candidate mapping actually handed to `zai.label`:
`Object.fromEntries(labels)`. -/
def candidateMap (categories : List String) : List (String × String) :=
  fromEntries (candidateLabels categories)

/-- The labeling loop; returns the list of metadata writes `(id, categories
value)` it performs.  `oracle content candidates` stands for the selection
returned by `zai.label`. -/
def labelFilesFromCategories
    (oracle : String → List (String × String) → List String)
    (cache : List (String × String)) (categories : List String) :
    List (String × List (String × String)) :=
  cache.foldl
    (fun writes kc =>
      let labels := candidateLabels categories
      let _labelsToApply := oracle kc.2 (candidateMap categories)
      if labels.length > 0 then writes ++ [(kc.1, labels)] else writes)
    []

/-! ### Ingestion Driver (src/index.ts lines 58-111)

`fetchAllContent` enumerates the files (their keys and, via
`client.list.filePassages`, their passages — modelled as data carried by
each file), counts every iteration in `fileCount`, breaks once
`fileCount > MAX_FILES_TO_PROCESS`, skips files whose key is already
cached, otherwise assembles the content, stores it in the cache and runs
`if (newProcessedFiles++ % 10 === 0) await saveCache()` — note the
post-increment: the saved condition uses the counter value before the
increment.  At the end, `if (newProcessedFiles > 0) await saveCache()`.

The state additionally records, as ghost observations, the snapshots
persisted by each `saveCache` call (`saves`), the value of
`newProcessedFiles` before the increment at each in-loop save and the
final value at the end-of-run save (`saveCounts`), and the ids whose
passages were fetched (`fetchedIds`). -/

/-- A file as returned by the content-store listing, together with the
passages the content store would return for its id. -/
structure FileEntry where
  id : String
  key : String
  passages : List Passage
deriving Repr, DecidableEq

/-- State of the ingestion loop. -/
structure IngestState where
  cache : List (String × String)
  fileCount : Nat
  newProcessedFiles : Nat
  saves : List (List (String × String))
  saveCounts : List Nat
  fetchedIds : List String
deriving Repr, DecidableEq

/-- Processing of one uncached file (src/index.ts lines 92-104): fetch the
passages (recorded in `fetchedIds`), assemble the content, `set` it in the
cache, and run `if (newProcessedFiles++ % 10 === 0) await saveCache()` —
the post-increment means the saved condition reads the counter value from
before the increment, and the snapshot saved is the cache just updated. -/
def processFile (st : IngestState) (f : FileEntry) : IngestState :=
  let cache := mapSet st.cache f.key (assembleContent f.passages)
  let np := st.newProcessedFiles
  { st with
    cache := cache,
    newProcessedFiles := np + 1,
    saves := if np % 10 = 0 then st.saves ++ [cache] else st.saves,
    saveCounts := if np % 10 = 0 then st.saveCounts ++ [np] else st.saveCounts,
    fetchedIds := st.fetchedIds ++ [f.id] }

/-- The `for (const file of files)` loop of `fetchAllContent`, with the cap
as a parameter (the source fixes it to `MAX_FILES_TO_PROCESS`): increment
`fileCount`, break once it exceeds the cap, skip files whose key is
cached, otherwise process the file. -/
def ingestLoop (cap : Nat) : List FileEntry → IngestState → IngestState
  | [], st => st
  | f :: fs, st =>
    if cap < st.fileCount + 1 then { st with fileCount := st.fileCount + 1 }
    else if containsKey st.cache f.key then
      ingestLoop cap fs { st with fileCount := st.fileCount + 1 }
    else ingestLoop cap fs (processFile { st with fileCount := st.fileCount + 1 } f)

/-- The loop state at the start of `fetchAllContent`: `fileCount` and
`newProcessedFiles` are local variables initialised to `0`; the cache is the
module-level `fileContentCache`, whatever it holds when the function runs. -/
def initIngest (cache0 : List (String × String)) : IngestState :=
  { cache := cache0, fileCount := 0, newProcessedFiles := 0,
    saves := [], saveCounts := [], fetchedIds := [] }

/-- The end of `fetchAllContent`: `if (newProcessedFiles > 0) await saveCache()`. -/
def finalizeIngest (st : IngestState) : IngestState :=
  if 0 < st.newProcessedFiles then
    { st with saves := st.saves ++ [st.cache],
              saveCounts := st.saveCounts ++ [st.newProcessedFiles] }
  else st

/-- Whole of `fetchAllContent`: run the loop, then
`if (newProcessedFiles > 0) await saveCache()`. -/
def fetchAllContent (cap : Nat) (files : List FileEntry)
    (cache0 : List (String × String)) : IngestState :=
  finalizeIngest (ingestLoop cap files (initIngest cache0))

/-! ### Cache Store persistence (src/index.ts lines 23-56)

`saveCache` serializes each `(key, content)` entry as
`JSON.stringify({ key, content })` and joins the lines with `"\n"`.
`restoreCache` fetches the blob, splits on `"\n"`, and for each truthy
(non-empty) line runs `JSON.parse(line)` and `fileContentCache.set(key,
content)`; any error anywhere (missing file, failed fetch, unparseable
line) is swallowed by the surrounding `try ... catch \x7b\x7d`, leaving
whatever entries were set before the error.

`JSON.stringify` on a string value emits `"`, `\` and the control
characters escaped (`\"`, `\\`, `\b`, `\f`, `\n`, `\r`, `\t`, `\u00xx`)
and every other character literally; `JSON.parse` is modelled on the
record shape `\x7b"key":s,"content":s\x7d` that this program writes,
with full JSON string-escape handling. -/

/-- Lowercase hex digit for a value below 16, as emitted by `JSON.stringify`
in `\u00xx` escapes. -/
def hexDigitChar (n : Nat) : Char :=
  if n < 10 then Char.ofNat ('0'.toNat + n) else Char.ofNat ('a'.toNat + n - 10)

/-- JSON escaping of a single character, per ECMA-262 `QuoteJSONString`. -/
def escapeChar (c : Char) : List Char :=
  if c = '"' then ['\\', '"']
  else if c = '\\' then ['\\', '\\']
  else if c.toNat = 8 then ['\\', 'b']
  else if c.toNat = 12 then ['\\', 'f']
  else if c = '\n' then ['\\', 'n']
  else if c.toNat = 13 then ['\\', 'r']
  else if c.toNat = 9 then ['\\', 't']
  else if c.toNat < 32 then
    ['\\', 'u', '0', '0', hexDigitChar (c.toNat / 16), hexDigitChar (c.toNat % 16)]
  else [c]

/-- JSON escaping of a whole string body. -/
def escapeString (s : List Char) : List Char :=
  (s.map escapeChar).flatten

/-- The characters of `JSON.stringify({ key: k, content: v })`. -/
def serializeRecord (k v : String) : List Char :=
  ['{', '"', 'k', 'e', 'y', '"', ':', '"'] ++ escapeString k.data
    ++ ['"', ',', '"', 'c', 'o', 'n', 't', 'e', 'n', 't', '"', ':', '"']
    ++ escapeString v.data ++ ['"', '}']

/-- JS `Array.prototype.join("\n")`: the empty array joins to the empty
string, otherwise the pieces are separated by single newlines. -/
def joinNl : List (List Char) → List Char
  | [] => []
  | [l] => l
  | l :: ls => l ++ '\n' :: joinNl ls

/-- The blob uploaded by `saveCache`: one serialized record per entry, joined
with `"\n"`. -/
def saveCacheText (m : List (String × String)) : String :=
  ⟨joinNl (m.map (fun kv => serializeRecord kv.1 kv.2))⟩

/-- Value of a hex digit character (JSON accepts both cases). -/
def hexVal (c : Char) : Option Nat :=
  if '0' ≤ c ∧ c ≤ '9' then some (c.toNat - '0'.toNat)
  else if 'a' ≤ c ∧ c ≤ 'f' then some (c.toNat - 'a'.toNat + 10)
  else if 'A' ≤ c ∧ c ≤ 'F' then some (c.toNat - 'A'.toNat + 10)
  else none

/-- Single-character JSON escapes. -/
def unescape1 (e : Char) : Option Char :=
  if e = '"' then some '"'
  else if e = '\\' then some '\\'
  else if e = '/' then some '/'
  else if e = 'b' then some (Char.ofNat 8)
  else if e = 'f' then some (Char.ofNat 12)
  else if e = 'n' then some '\n'
  else if e = 'r' then some '\r'
  else if e = 't' then some '\t'
  else none

/-- Parse the body of a JSON string (the part after the opening quote) up to
and including the closing quote; returns the decoded characters and the
input remaining after the closing quote.  `none` models `JSON.parse`
throwing: on an unterminated literal, a bad escape, or an unescaped
control character (JSON requires characters below U+0020 to be escaped). -/
def parseStringBody : List Char → Option (List Char × List Char)
  | [] => none
  | c :: rest =>
    if c = '"' then some ([], rest)
    else if c = '\\' then
      match rest with
      | 'u' :: h1 :: h2 :: h3 :: h4 :: rest3 =>
        match hexVal h1, hexVal h2, hexVal h3, hexVal h4 with
        | some a, some b, some c2, some d =>
          (parseStringBody rest3).map
            (fun sr => (Char.ofNat (a * 4096 + b * 256 + c2 * 16 + d) :: sr.1, sr.2))
        | _, _, _, _ => none
      | e :: rest2 =>
        match unescape1 e with
        | some u => (parseStringBody rest2).map (fun sr => (u :: sr.1, sr.2))
        | none => none
      | [] => none
    else if c.toNat < 32 then none
    else (parseStringBody rest).map (fun sr => (c :: sr.1, sr.2))

/-- JSON insignificant whitespace: space, tab, line feed, carriage return. -/
def isJsonWs (c : Char) : Bool :=
  c = ' ' || c = '\t' || c = '\n' || c = '\r'

/-- Skip JSON whitespace. -/
def skipWs (l : List Char) : List Char :=
  l.dropWhile isJsonWs

/-- Expect the token character `c` after optional whitespace. -/
def expectChar (c : Char) (l : List Char) : Option (List Char) :=
  match skipWs l with
  | c' :: rest => if c' = c then some rest else none
  | [] => none

/-- Parse a JSON string literal after optional whitespace. -/
def parseJstring (l : List Char) : Option (List Char × List Char) :=
  match skipWs l with
  | '"' :: rest => parseStringBody rest
  | _ => none

/-- Parse one object member `string : string` (with optional whitespace);
returns the member name, its value and the remaining input. -/
def parseMember (l : List Char) : Option (List Char × List Char × List Char) :=
  (parseJstring l).bind fun nr =>
    (expectChar ':' nr.2).bind fun r2 =>
      (parseJstring r2).map fun vr => (nr.1, vr.1, vr.2)

/-- Parse one cache record line: `JSON.parse(line)` followed by the
destructuring read of `.key` and `.content`, modelled on the records this
pipeline exchanges — a JSON object with exactly the two string-valued
members `key` and `content`, in either order, with JSON whitespace allowed
between tokens and nothing but whitespace after the closing brace.  `none`
models the parse throwing (JSON values of any other shape are outside this
model; the theorems quantifying over arbitrary blobs restrict themselves
to lines on which this model agrees with `JSON.parse`). -/
def parseRecord (l : List Char) : Option (String × String) :=
  (expectChar '{' l).bind fun r0 =>
  (parseMember r0).bind fun m1 =>
  (expectChar ',' m1.2.2).bind fun r2 =>
  (parseMember r2).bind fun m2 =>
  (expectChar '}' m2.2.2).bind fun r4 =>
  if (skipWs r4).isEmpty then
    if m1.1 = "key".data ∧ m2.1 = "content".data then some (⟨m1.2.1⟩, ⟨m2.2.1⟩)
    else if m1.1 = "content".data ∧ m2.1 = "key".data then some (⟨m2.2.1⟩, ⟨m1.2.1⟩)
    else none
  else none

/-- Characters that can begin a JSON value (object, array, string, number,
`true`, `false`, `null`).  `JSON.parse` throws on any input whose first
non-whitespace character is not one of these. -/
def jsonValueStart (c : Char) : Bool :=
  c = '{' || c = '[' || c = '"' || c = '-' || c.isDigit || c = 't' || c = 'f' || c = 'n'

/-- A line on which `JSON.parse` throws whatever follows: after skipping
whitespace nothing remains, or the first character cannot begin a JSON
value. -/
def lineUnparseable (l : List Char) : Bool :=
  match skipWs l with
  | [] => true
  | c :: _ => !(jsonValueStart c)

/-- JS `String.prototype.split("\n")`: split on every newline; an empty
string yields `[""]`. -/
def splitNl : List Char → List (List Char)
  | [] => [[]]
  | c :: rest =>
    if c = '\n' then [] :: splitNl rest
    else
      match splitNl rest with
      | [] => [[c]]
      | l :: ls => (c :: l) :: ls

/-- The restore loop: for each truthy (non-empty) line, parse it and `set`
the entry; a parse error aborts the loop, keeping the entries set so far.
Returns the resulting cache and whether an error escaped the loop (to be
swallowed by the `catch`). -/
def restoreLines : List (List Char) → List (String × String) → List (String × String) × Bool
  | [], acc => (acc, false)
  | l :: ls, acc =>
    if l.isEmpty then restoreLines ls acc
    else
      match parseRecord l with
      | some kv => restoreLines ls (mapSet acc kv.1 kv.2)
      | none => (acc, true)

/-- Outcome of `client.getFile` plus the `fetch` of the returned URL:
the key may be absent, the fetch may fail, or text is obtained. -/
inductive FetchOutcome where
  | missing
  | fetchFailed
  | ok (text : String)

/-- Whole of `restoreCache`, starting from the empty module-level cache: any
failure before text is obtained leaves the cache empty; otherwise the lines
are processed and the `catch \x7b\x7d` swallows any parse error, keeping
the entries set before it. -/
def restoreCache : FetchOutcome → List (String × String)
  | .missing => []
  | .fetchFailed => []
  | .ok text => (restoreLines (splitNl text.data) []).1

/-- Whether the `try` body of `restoreCache` threw (the swallowed error). -/
def restoreThrew : FetchOutcome → Bool
  | .missing => true
  | .fetchFailed => true
  | .ok text => (restoreLines (splitNl text.data) []).2

/-! ### Basic lemmas about the map model -/

theorem containsKey_cons {kv : String × String} {m : List (String × String)} {k : String} :
    containsKey (kv :: m) k ↔ kv.1 = k ∨ containsKey m k := by
  simp [containsKey, eq_comm]

theorem mapSet_of_not_contains :
    ∀ {m : List (String × String)} {k : String} (v : String),
      ¬ containsKey m k → mapSet m k v = m ++ [(k, v)]
  | [], k, v, _ => rfl
  | (k0, v0) :: rest, k, v, h => by
    have hk : ¬ (k0 = k ∨ containsKey rest k) := fun hc => h (containsKey_cons.mpr hc)
    push_neg at hk
    simp [mapSet, hk.1, mapSet_of_not_contains v hk.2]

theorem map_fst_mapSet (k v : String) :
    ∀ m : List (String × String),
      (mapSet m k v).map Prod.fst
        = if containsKey m k then m.map Prod.fst else m.map Prod.fst ++ [k]
  | [] => by simp [mapSet, containsKey]
  | (k0, v0) :: rest => by
    by_cases h0 : k0 = k
    · subst h0
      have : containsKey ((k0, v0) :: rest) k0 := containsKey_cons.mpr (Or.inl rfl)
      simp [mapSet, this]
    · have hck : containsKey ((k0, v0) :: rest) k ↔ containsKey rest k := by
        rw [containsKey_cons]
        exact or_iff_right h0
      by_cases h1 : containsKey rest k
      · simp [mapSet, h0, map_fst_mapSet k v rest, h1, hck]
      · simp [mapSet, h0, map_fst_mapSet k v rest, h1, hck]

theorem containsKey_mapSet {m : List (String × String)} {k v k' : String} :
    containsKey (mapSet m k v) k' ↔ containsKey m k' ∨ k' = k := by
  unfold containsKey
  rw [map_fst_mapSet]
  by_cases h : containsKey m k
  · rw [if_pos h]
    constructor
    · exact Or.inl
    · rintro (hk | rfl)
      · exact hk
      · exact h
  · rw [if_neg h]
    simp [containsKey]

theorem nodup_map_fst_mapSet {m : List (String × String)} {k : String} (v : String)
    (h : (m.map Prod.fst).Nodup) : ((mapSet m k v).map Prod.fst).Nodup := by
  rw [map_fst_mapSet]
  by_cases hc : containsKey m k
  · rwa [if_pos hc]
  · rw [if_neg hc]
    rw [List.nodup_append]
    refine ⟨h, List.nodup_singleton _, ?_⟩
    intro a ha hb
    have hak : a = k := by simpa using hb
    subst hak
    exact hc ha

theorem lookupKey_mapSet (k v k' : String) :
    ∀ m : List (String × String),
      lookupKey k' (mapSet m k v) = if k = k' then some v else lookupKey k' m
  | [] => by simp [mapSet, lookupKey]
  | (k0, v0) :: rest => by
    by_cases h0 : k0 = k
    · have hm : mapSet ((k0, v0) :: rest) k v = (k, v) :: rest := by
        simp [mapSet, h0]
      rw [hm]
      show (if k = k' then some v else lookupKey k' rest) = _
      by_cases h1 : k = k'
      · rw [if_pos h1, if_pos h1]
      · rw [if_neg h1, if_neg h1]
        show lookupKey k' rest = if k0 = k' then some v0 else lookupKey k' rest
        have h01 : ¬ k0 = k' := by rw [h0]; exact h1
        rw [if_neg h01]
    · have hm : mapSet ((k0, v0) :: rest) k v = (k0, v0) :: mapSet rest k v := by
        simp [mapSet, h0]
      rw [hm]
      show (if k0 = k' then some v0 else lookupKey k' (mapSet rest k v)) = _
      by_cases h1 : k0 = k'
      · have hkk : ¬ k = k' := fun he => h0 (h1.trans he.symm)
        rw [if_pos h1, if_neg hkk]
        show some v0 = if k0 = k' then some v0 else lookupKey k' rest
        rw [if_pos h1]
      · rw [if_neg h1, lookupKey_mapSet k v k' rest]
        by_cases h2 : k = k'
        · rw [if_pos h2, if_pos h2]
        · rw [if_neg h2, if_neg h2]
          show lookupKey k' rest = if k0 = k' then some v0 else lookupKey k' rest
          rw [if_neg h1]

theorem lookupKey_append (k' : String) :
    ∀ l1 l2 : List (String × String),
      lookupKey k' (l1 ++ l2) = (lookupKey k' l1).or (lookupKey k' l2)
  | [], l2 => by simp [lookupKey]
  | (k0, v0) :: rest, l2 => by
    by_cases h : k0 = k'
    · simp [lookupKey, h]
    · simp [lookupKey, h, lookupKey_append k' rest l2]

/-! ### Lemmas about `Object.fromEntries` -/

theorem foldl_mapSet_containsKey :
    ∀ (l : List (String × String)) (acc : List (String × String)) (k : String),
      containsKey (l.foldl (fun a kv => mapSet a kv.1 kv.2) acc) k
        ↔ containsKey acc k ∨ k ∈ l.map Prod.fst
  | [], acc, k => by simp
  | kv :: l, acc, k => by
    rw [List.foldl_cons, foldl_mapSet_containsKey l _ k, containsKey_mapSet]
    simp only [List.map_cons, List.mem_cons]
    tauto

theorem foldl_mapSet_nodup :
    ∀ (l : List (String × String)) (acc : List (String × String)),
      (acc.map Prod.fst).Nodup →
      (((l.foldl (fun a kv => mapSet a kv.1 kv.2) acc)).map Prod.fst).Nodup
  | [], _, h => h
  | kv :: l, _, h =>
    foldl_mapSet_nodup l _ (nodup_map_fst_mapSet kv.2 h)

theorem foldl_mapSet_lookupKey :
    ∀ (l : List (String × String)) (acc : List (String × String)) (k' : String),
      lookupKey k' (l.foldl (fun a kv => mapSet a kv.1 kv.2) acc)
        = (lookupLast k' l).or (lookupKey k' acc)
  | [], acc, k' => by simp [lookupLast, lookupKey]
  | (k0, v0) :: l, acc, k' => by
    rw [List.foldl_cons, foldl_mapSet_lookupKey l _ k']
    have hlast : lookupLast k' ((k0, v0) :: l)
        = (lookupLast k' l).or (if k0 = k' then some v0 else none) := by
      simp only [lookupLast, List.reverse_cons, lookupKey_append, lookupKey]
    rw [hlast, Option.or_assoc, lookupKey_mapSet]
    rcases lookupLast k' l with _ | v
    · simp only [Option.none_or]
      by_cases h : k0 = k'
      · simp [h]
      · simp [h]
    · simp [Option.or_some]

theorem fromEntries_containsKey {l : List (String × String)} {k : String} :
    containsKey (fromEntries l) k ↔ k ∈ l.map Prod.fst := by
  unfold fromEntries
  rw [foldl_mapSet_containsKey]
  simp [containsKey]

theorem fromEntries_nodup (l : List (String × String)) :
    ((fromEntries l).map Prod.fst).Nodup :=
  foldl_mapSet_nodup l [] (by simp)

theorem fromEntries_lookupKey (l : List (String × String)) (k : String) :
    lookupKey k (fromEntries l) = lookupLast k l := by
  unfold fromEntries
  rw [foldl_mapSet_lookupKey]
  simp [lookupKey]

theorem fromEntries_length_lt {l : List (String × String)}
    (h : ¬ (l.map Prod.fst).Nodup) : (fromEntries l).length < l.length := by
  have hn := fromEntries_nodup l
  have hperm : List.Perm ((fromEntries l).map Prod.fst) ((l.map Prod.fst).dedup) :=
    (List.perm_ext_iff_of_nodup hn (List.nodup_dedup _)).mpr
      (fun a => by rw [List.mem_dedup]; exact fromEntries_containsKey)
  have h1 : (fromEntries l).length = (l.map Prod.fst).dedup.length := by
    have := hperm.length_eq
    simpa using this
  have hsub := List.dedup_sublist (l.map Prod.fst)
  have hlt : (l.map Prod.fst).dedup.length < (l.map Prod.fst).length := by
    rcases Nat.lt_or_ge (l.map Prod.fst).dedup.length (l.map Prod.fst).length with hlt | hge
    · exact hlt
    · exfalso
      have heq : (l.map Prod.fst).dedup = l.map Prod.fst :=
        hsub.eq_of_length (Nat.le_antisymm hsub.length_le hge)
      exact h (heq ▸ List.nodup_dedup (l.map Prod.fst))
  have h2 : (l.map Prod.fst).length = l.length := by simp
  omega

/-! ### Lemmas about slug sanitization -/

theorem replChar_idem (c : Char) : replChar (replChar c) = replChar c := by
  by_cases h : c.isAlphanum
  · simp [replChar, h]
  · have h2 : replChar c = '_' := by simp [replChar, h]
    rw [h2]
    rfl

theorem collapseU_idem : ∀ (l : List Char) (b : Bool), collapseU b (collapseU b l) = collapseU b l
  | [], _ => rfl
  | c :: rest, b => by
    by_cases hc : c = '_'
    · subst hc
      cases b
      · have h1 : collapseU false ('_' :: rest) = '_' :: collapseU true rest := by
          simp [collapseU]
        rw [h1]
        have h2 : collapseU false ('_' :: collapseU true rest)
            = '_' :: collapseU true (collapseU true rest) := by
          simp [collapseU]
        rw [h2, collapseU_idem rest true]
      · have h1 : collapseU true ('_' :: rest) = collapseU true rest := by
          simp [collapseU]
        rw [h1, collapseU_idem rest true]
    · have h1 : collapseU b (c :: rest) = c :: collapseU false rest := by
        simp [collapseU, hc]
      rw [h1]
      have h2 : collapseU b (c :: collapseU false rest)
          = c :: collapseU false (collapseU false rest) := by
        simp [collapseU, hc]
      rw [h2, collapseU_idem rest false]

theorem mem_collapseU : ∀ (l : List Char) (b : Bool) (c : Char), c ∈ collapseU b l → c ∈ l
  | [], _, _, h => by simp [collapseU] at h
  | c0 :: rest, b, c, h => by
    by_cases hc : c0 = '_'
    · subst hc
      cases b
      · rw [show collapseU false ('_' :: rest) = '_' :: collapseU true rest from by
          simp [collapseU]] at h
        rcases List.mem_cons.mp h with h | h
        · exact h ▸ List.mem_cons_self _ _
        · exact List.mem_cons_of_mem _ (mem_collapseU rest true c h)
      · rw [show collapseU true ('_' :: rest) = collapseU true rest from by
          simp [collapseU]] at h
        exact List.mem_cons_of_mem _ (mem_collapseU rest true c h)
    · rw [show collapseU b (c0 :: rest) = c0 :: collapseU false rest from by
        simp [collapseU, hc]] at h
      rcases List.mem_cons.mp h with h | h
      · exact h ▸ List.mem_cons_self _ _
      · exact List.mem_cons_of_mem _ (mem_collapseU rest false c h)

theorem slugify_idem (s : String) : slugify (slugify s) = slugify s := by
  show (⟨collapseU false (((slugify s).data).map replChar)⟩ : String) = slugify s
  have hdata : (slugify s).data = collapseU false (s.data.map replChar) := rfl
  have hfix : ((slugify s).data).map replChar = (slugify s).data := by
    have : ∀ c ∈ (slugify s).data, replChar c = c := by
      intro c hcmem
      rw [hdata] at hcmem
      have hcmem2 : c ∈ s.data.map replChar := mem_collapseU _ _ _ hcmem
      obtain ⟨d, _, hd⟩ := List.mem_map.mp hcmem2
      rw [← hd]
      exact replChar_idem d
    calc ((slugify s).data).map replChar = ((slugify s).data).map id :=
        List.map_congr_left this
      _ = (slugify s).data := List.map_id _
  rw [hfix, hdata, collapseU_idem]
  rfl

/-! ### Claim C9: slug sanitization is deterministic and idempotent -/

/-- Claim C9: the slug sanitizer (replace every non-alphanumeric run by a
single underscore) is a pure function — the same name yields the same slug
on every application — it is idempotent on its own output, and
`"Billing & Invoices"` maps to `"Billing_Invoices"`. -/
theorem slugify_idempotent_and_stable :
    (∀ s : String, slugify (slugify s) = slugify s)
    ∧ slugify "Billing & Invoices" = "Billing_Invoices" := by
  refine ⟨slugify_idem, ?_⟩
  rfl

/-! ### Claim C1: category list post-processing -/

/-- Claim C1 (corrected): every entry of the synthesized category list is a
trimmed extracted name and is non-empty, and the list is no longer than
what the extraction capability returned.  There is however no truncation to
`MAX_CATEGORIES` (see `generateListOfCategories_can_exceed_max`). -/
theorem generateListOfCategories_trimmed_nonempty (arr : List CategoryRec) :
    (∀ e ∈ generateListOfCategories arr, (∃ r ∈ arr, e = jsTrim r.name) ∧ e ≠ "")
    ∧ (generateListOfCategories arr).length ≤ arr.length := by
  constructor
  · intro e he
    simp only [generateListOfCategories, List.mem_filter, List.mem_map] at he
    obtain ⟨⟨r, hr, hre⟩, hne⟩ := he
    refine ⟨⟨r, hr, hre.symm⟩, ?_⟩
    intro h
    subst h
    exact absurd hne (by decide)
  · calc (generateListOfCategories arr).length
        ≤ (arr.map (fun x => jsTrim x.name)).length := List.length_filter_le _ _
      _ = arr.length := by simp

set_option maxRecDepth 4000 in
/-- Counterexample to claim C1 as stated: `generateListOfCategories` does not
truncate to `MAX_CATEGORIES`; when the extraction capability yields 251
non-empty names the returned list has 251 entries. -/
theorem generateListOfCategories_can_exceed_max :
    ¬ ((generateListOfCategories (List.replicate 251 ⟨"a"⟩)).length ≤ MAX_CATEGORIES) := by
  decide

/-! ### Lemmas about the labeling loop -/

theorem labelWritesFullList (oracle : String → List (String × String) → List String)
    (cache : List (String × String)) (categories : List String)
    (h : categories ≠ []) :
    labelFilesFromCategories oracle cache categories
      = cache.map (fun kc => (kc.1, candidateLabels categories)) := by
  have hlen : 0 < (candidateLabels categories).length := by
    simpa [candidateLabels] using List.length_pos.mpr h
  suffices H : ∀ (c : List (String × String)) (acc : List (String × List (String × String))),
      c.foldl
        (fun writes kc =>
          let labels := candidateLabels categories
          let _labelsToApply := oracle kc.2 (candidateMap categories)
          if labels.length > 0 then writes ++ [(kc.1, labels)] else writes) acc
      = acc ++ c.map (fun kc => (kc.1, candidateLabels categories)) by
    simpa [labelFilesFromCategories] using H cache []
  intro c
  induction c with
  | nil => intro acc; simp
  | cons kc rest ih =>
    intro acc
    simp only [List.foldl_cons, List.map_cons]
    rw [if_pos hlen, ih, List.append_assoc]
    rfl

/-! ### Claim C2: metadata writes use the full candidate list -/

/-- Claim C2: for every cached document, with a non-empty category list, the
labeling driver writes — keyed by the document's cache key — the full
candidate list of `(slug, name)` pairs as the `categories` metadata, for
every possible behaviour of the labeling capability (in particular also
when it selects nothing); the `labels.length > 0` guard tests the
candidate list, not the selected subset. -/
theorem labelFiles_writes_full_candidate_list
    (oracle : String → List (String × String) → List String)
    (cache : List (String × String)) (categories : List String)
    (h : categories ≠ []) :
    labelFilesFromCategories oracle cache categories
      = cache.map (fun kc => (kc.1, candidateLabels categories)) :=
  labelWritesFullList oracle cache categories h

/-- Witness for C2: one cached document, one category, and a labeling
capability that selects nothing — the full candidate list is still written. -/
theorem labelFiles_writes_full_candidate_list_witness :
    (["Ops"] ≠ ([] : List String))
    ∧ labelFilesFromCategories (fun _ _ => []) [("k1", "doc")] ["Ops"]
        = [("k1", [("Ops", "Ops")])] := by
  refine ⟨by decide, ?_⟩
  rw [labelFiles_writes_full_candidate_list (fun _ _ => []) [("k1", "doc")] ["Ops"]
    (by decide)]
  rfl

/-! ### Claim C10: slug collisions shrink the candidate mapping, not the metadata -/

/-- Claim C10: if the category list contains two distinct names with the same
slug then the mapping handed to the labeling capability
(`Object.fromEntries`) has strictly fewer entries than there are
categories, each slug resolving to the last name that produced it, while
the metadata write keeps every `(slug, name)` pair including duplicates. -/
theorem slug_collision_shrinks_candidates (cats : List String) (a b : String)
    (hsub : [a, b].Sublist cats) (hne : a ≠ b) (hslug : slugify a = slugify b) :
    (candidateMap cats).length < cats.length
    ∧ (∀ s, lookupKey s (candidateMap cats) = lookupLast s (candidateLabels cats))
    ∧ (∀ (oracle : String → List (String × String) → List String)
         (cache : List (String × String)),
        labelFilesFromCategories oracle cache cats
          = cache.map (fun kc => (kc.1, candidateLabels cats))) := by
  have hkeys : (candidateLabels cats).map Prod.fst = cats.map slugify := by
    simp [candidateLabels, Function.comp]
  have hdup : ¬ (cats.map slugify).Nodup := by
    intro hn
    have hsl : [slugify a, slugify b].Sublist (cats.map slugify) := by
      simpa using hsub.map slugify
    have : [slugify a, slugify b].Nodup := hsl.nodup hn
    rw [hslug] at this
    simp at this
  have hne' : cats ≠ [] := by
    intro hc
    subst hc
    simp at hsub
  refine ⟨?_, ?_, ?_⟩
  · have := fromEntries_length_lt (l := candidateLabels cats) (by rw [hkeys]; exact hdup)
    have hlen : (candidateLabels cats).length = cats.length := by simp [candidateLabels]
    unfold candidateMap
    omega
  · intro s
    exact fromEntries_lookupKey (candidateLabels cats) s
  · intro oracle cache
    exact labelWritesFullList oracle cache cats hne'

/-- Witness for C10: `"Billing & Invoices"` and `"Billing + Invoices"` are
distinct names with the same slug; the candidate mapping drops to one entry
holding the later name, while the metadata write keeps both pairs. -/
theorem slug_collision_shrinks_candidates_witness :
    ([("Billing & Invoices" : String), "Billing + Invoices"].Sublist
        ["Billing & Invoices", "Billing + Invoices"]
      ∧ ("Billing & Invoices" : String) ≠ "Billing + Invoices"
      ∧ slugify "Billing & Invoices" = slugify "Billing + Invoices")
    ∧ ((candidateMap ["Billing & Invoices", "Billing + Invoices"]).length < 2
        ∧ (∀ s, lookupKey s (candidateMap ["Billing & Invoices", "Billing + Invoices"])
            = lookupLast s (candidateLabels ["Billing & Invoices", "Billing + Invoices"]))
        ∧ (∀ (oracle : String → List (String × String) → List String)
             (cache : List (String × String)),
            labelFilesFromCategories oracle cache
                ["Billing & Invoices", "Billing + Invoices"]
              = cache.map (fun kc =>
                  (kc.1, candidateLabels ["Billing & Invoices", "Billing + Invoices"])))) :=
  ⟨⟨List.Sublist.refl _, by decide, by rfl⟩,
    slug_collision_shrinks_candidates _ _ _ (List.Sublist.refl _) (by decide) (by rfl)⟩

/-! ### Claim C3: passage ordering -/

/-- Claim C3: the assembler's sort orders passages by `position` ascending
(missing position counting as `0`), is a permutation of the input, is
stable (any pair in comparator order — in particular any tie — keeps its
relative order), and the assembled text is the contents joined by a single
newline in that order; concretely, positions `[2, 0, 1]` with contents
`["c", "a", "b"]` assemble to `"a\nb\nc"`, and a missing position sorts
like `0` with original order preserved among the tied. -/
theorem assemble_sorts_stably_by_position (ps : List Passage) (a b : Passage)
    (hab : passageLE a b) (hsub : List.Sublist [a, b] ps) :
    List.Sorted passageLE (sortPassages ps)
    ∧ List.Perm (sortPassages ps) ps
    ∧ List.Sublist [a, b] (sortPassages ps)
    ∧ assembleContent ps = String.intercalate "\n" ((sortPassages ps).map (·.content))
    ∧ assembleContent [⟨"c", some 2⟩, ⟨"a", some 0⟩, ⟨"b", some 1⟩] = "a\nb\nc"
    ∧ assembleContent [⟨"x", none⟩, ⟨"y", some 0⟩] = "x\ny" := by
  refine ⟨List.sorted_insertionSort passageLE ps, List.perm_insertionSort passageLE ps,
    ?_, rfl, by rfl, by rfl⟩
  exact List.pair_sublist_insertionSort hab hsub

/-- Witness for C3 at the spec's concrete example: the tied-order pair is the
`position 0` and `position 1` passages of the `[2, 0, 1]` example. -/
theorem assemble_sorts_stably_by_position_witness :
    (passageLE ⟨"a", some 0⟩ ⟨"b", some 1⟩
      ∧ List.Sublist [⟨"a", some 0⟩, ⟨"b", some 1⟩]
          [(⟨"c", some 2⟩ : Passage), ⟨"a", some 0⟩, ⟨"b", some 1⟩])
    ∧ (List.Sorted passageLE
          (sortPassages [⟨"c", some 2⟩, ⟨"a", some 0⟩, ⟨"b", some 1⟩])
        ∧ List.Perm (sortPassages [⟨"c", some 2⟩, ⟨"a", some 0⟩, ⟨"b", some 1⟩])
            [⟨"c", some 2⟩, ⟨"a", some 0⟩, ⟨"b", some 1⟩]
        ∧ List.Sublist [⟨"a", some 0⟩, ⟨"b", some 1⟩]
            (sortPassages [⟨"c", some 2⟩, ⟨"a", some 0⟩, ⟨"b", some 1⟩])
        ∧ assembleContent [⟨"c", some 2⟩, ⟨"a", some 0⟩, ⟨"b", some 1⟩]
            = String.intercalate "\n"
                ((sortPassages [⟨"c", some 2⟩, ⟨"a", some 0⟩, ⟨"b", some 1⟩]).map
                  (·.content))
        ∧ assembleContent [⟨"c", some 2⟩, ⟨"a", some 0⟩, ⟨"b", some 1⟩] = "a\nb\nc"
        ∧ assembleContent [⟨"x", none⟩, ⟨"y", some 0⟩] = "x\ny") :=
  ⟨⟨by decide, List.Sublist.cons _ (List.Sublist.refl _)⟩,
    assemble_sorts_stably_by_position _ _ _ (by decide)
      (List.Sublist.cons _ (List.Sublist.refl _))⟩

/-! ### Lemmas about the ingestion loop -/

theorem ingestLoop_break {cap : Nat} {st : IngestState} (f : FileEntry) (fs : List FileEntry)
    (h : cap < st.fileCount + 1) :
    ingestLoop cap (f :: fs) st = { st with fileCount := st.fileCount + 1 } := by
  simp only [ingestLoop]
  rw [if_pos h]

theorem ingestLoop_skip {cap : Nat} {st : IngestState} (f : FileEntry) (fs : List FileEntry)
    (h1 : ¬ cap < st.fileCount + 1) (h2 : containsKey st.cache f.key) :
    ingestLoop cap (f :: fs) st
      = ingestLoop cap fs { st with fileCount := st.fileCount + 1 } := by
  simp only [ingestLoop]
  rw [if_neg h1, if_pos h2]

theorem ingestLoop_proc {cap : Nat} {st : IngestState} (f : FileEntry) (fs : List FileEntry)
    (h1 : ¬ cap < st.fileCount + 1) (h2 : ¬ containsKey st.cache f.key) :
    ingestLoop cap (f :: fs) st
      = ingestLoop cap fs (processFile { st with fileCount := st.fileCount + 1 } f) := by
  simp only [ingestLoop]
  rw [if_neg h1, if_neg h2]

theorem ingestLoop_cache_mono (cap : Nat) :
    ∀ (files : List FileEntry) (st : IngestState) (k : String),
      containsKey st.cache k → containsKey (ingestLoop cap files st).cache k
  | [], _, _, h => h
  | f :: fs, st, k, h => by
    by_cases hb : cap < st.fileCount + 1
    · rw [ingestLoop_break f fs hb]
      exact h
    · by_cases hc : containsKey st.cache f.key
      · rw [ingestLoop_skip f fs hb hc]
        exact ingestLoop_cache_mono cap fs _ k h
      · rw [ingestLoop_proc f fs hb hc]
        refine ingestLoop_cache_mono cap fs _ k ?_
        simp only [processFile]
        exact containsKey_mapSet.mpr (Or.inl h)

theorem ingestLoop_all_cached (cap : Nat) :
    ∀ (files : List FileEntry) (st : IngestState),
      st.fileCount + files.length ≤ cap →
      ∀ f ∈ files, containsKey (ingestLoop cap files st).cache f.key
  | [], _, _, f, hf => absurd hf (List.not_mem_nil f)
  | g :: fs, st, hcap, f, hf => by
    have hb : ¬ cap < st.fileCount + 1 := by
      simp only [List.length_cons] at hcap
      omega
    have hcap' : st.fileCount + 1 + fs.length ≤ cap := by
      simp only [List.length_cons] at hcap
      omega
    by_cases hc : containsKey st.cache g.key
    · rw [ingestLoop_skip g fs hb hc]
      rcases List.mem_cons.mp hf with rfl | hf'
      · exact ingestLoop_cache_mono cap fs _ f.key hc
      · exact ingestLoop_all_cached cap fs _ (by simpa using hcap') f hf'
    · rw [ingestLoop_proc g fs hb hc]
      rcases List.mem_cons.mp hf with rfl | hf'
      · refine ingestLoop_cache_mono cap fs _ f.key ?_
        simp only [processFile]
        exact containsKey_mapSet.mpr (Or.inr rfl)
      · refine ingestLoop_all_cached cap fs _ ?_ f hf'
        simpa [processFile] using hcap'

theorem ingestLoop_noop (cap : Nat) :
    ∀ (files : List FileEntry) (st : IngestState),
      (∀ f ∈ files, containsKey st.cache f.key) →
      (ingestLoop cap files st).cache = st.cache
      ∧ (ingestLoop cap files st).newProcessedFiles = st.newProcessedFiles
      ∧ (ingestLoop cap files st).saves = st.saves
      ∧ (ingestLoop cap files st).saveCounts = st.saveCounts
      ∧ (ingestLoop cap files st).fetchedIds = st.fetchedIds
  | [], _, _ => ⟨rfl, rfl, rfl, rfl, rfl⟩
  | f :: fs, st, h => by
    by_cases hb : cap < st.fileCount + 1
    · rw [ingestLoop_break f fs hb]
      exact ⟨rfl, rfl, rfl, rfl, rfl⟩
    · rw [ingestLoop_skip f fs hb (h f (List.mem_cons_self f fs))]
      exact ingestLoop_noop cap fs _ (fun g hg => h g (List.mem_cons_of_mem f hg))

theorem ingestLoop_append (cap : Nat) :
    ∀ (l1 l2 : List FileEntry) (st : IngestState),
      st.fileCount + l1.length ≤ cap →
      ingestLoop cap (l1 ++ l2) st = ingestLoop cap l2 (ingestLoop cap l1 st)
  | [], l2, st, _ => by simp [ingestLoop]
  | f :: fs, l2, st, hcap => by
    have hb : ¬ cap < st.fileCount + 1 := by
      simp only [List.length_cons] at hcap
      omega
    have hcap' : st.fileCount + 1 + fs.length ≤ cap := by
      simp only [List.length_cons] at hcap
      omega
    rw [List.cons_append]
    by_cases hc : containsKey st.cache f.key
    · rw [ingestLoop_skip f (fs ++ l2) hb hc, ingestLoop_skip f fs hb hc,
        ingestLoop_append cap fs l2 _ (by simpa using hcap')]
    · rw [ingestLoop_proc f (fs ++ l2) hb hc, ingestLoop_proc f fs hb hc,
        ingestLoop_append cap fs l2 _ (by simpa [processFile] using hcap')]

theorem ingestLoop_fileCount (cap : Nat) :
    ∀ (files : List FileEntry) (st : IngestState),
      st.fileCount + files.length ≤ cap →
      (ingestLoop cap files st).fileCount = st.fileCount + files.length
  | [], _, _ => by simp [ingestLoop]
  | f :: fs, st, hcap => by
    have hb : ¬ cap < st.fileCount + 1 := by
      simp only [List.length_cons] at hcap
      omega
    have hcap' : st.fileCount + 1 + fs.length ≤ cap := by
      simp only [List.length_cons] at hcap
      omega
    by_cases hc : containsKey st.cache f.key
    · rw [ingestLoop_skip f fs hb hc,
        ingestLoop_fileCount cap fs _ (by simpa using hcap')]
      simp only [List.length_cons]
      omega
    · rw [ingestLoop_proc f fs hb hc,
        ingestLoop_fileCount cap fs _ (by simpa [processFile] using hcap')]
      simp only [processFile, List.length_cons]
      omega

theorem ingestLoop_cache_keys (cap : Nat) :
    ∀ (files : List FileEntry) (st : IngestState) (k : String),
      containsKey (ingestLoop cap files st).cache k →
      containsKey st.cache k ∨ k ∈ files.map (·.key)
  | [], _, _, h => Or.inl h
  | f :: fs, st, k, h => by
    by_cases hb : cap < st.fileCount + 1
    · rw [ingestLoop_break f fs hb] at h
      exact Or.inl h
    · by_cases hc : containsKey st.cache f.key
      · rw [ingestLoop_skip f fs hb hc] at h
        rcases ingestLoop_cache_keys cap fs _ k h with h' | h'
        · exact Or.inl h'
        · exact Or.inr (by simp [h'])
      · rw [ingestLoop_proc f fs hb hc] at h
        rcases ingestLoop_cache_keys cap fs _ k h with h' | h'
        · simp only [processFile] at h'
          rcases containsKey_mapSet.mp h' with h'' | rfl
          · exact Or.inl h''
          · exact Or.inr (by simp)
        · exact Or.inr (by simp [h'])

theorem ingestLoop_fetched (cap : Nat) :
    ∀ (files : List FileEntry) (st : IngestState) (x : String),
      x ∈ (ingestLoop cap files st).fetchedIds →
      x ∈ st.fetchedIds ∨ x ∈ files.map (·.id)
  | [], _, _, h => Or.inl h
  | f :: fs, st, x, h => by
    by_cases hb : cap < st.fileCount + 1
    · rw [ingestLoop_break f fs hb] at h
      exact Or.inl h
    · by_cases hc : containsKey st.cache f.key
      · rw [ingestLoop_skip f fs hb hc] at h
        rcases ingestLoop_fetched cap fs _ x h with h' | h'
        · exact Or.inl h'
        · exact Or.inr (by simp [h'])
      · rw [ingestLoop_proc f fs hb hc] at h
        rcases ingestLoop_fetched cap fs _ x h with h' | h'
        · simp only [processFile, List.mem_append] at h'
          rcases h' with h'' | h''
          · exact Or.inl h''
          · exact Or.inr (by simp at h''; simp [h''])
        · exact Or.inr (by simp [h'])

theorem ingestLoop_np_mono (cap : Nat) :
    ∀ (files : List FileEntry) (st : IngestState),
      st.newProcessedFiles ≤ (ingestLoop cap files st).newProcessedFiles
  | [], _ => Nat.le_refl _
  | f :: fs, st => by
    by_cases hb : cap < st.fileCount + 1
    · rw [ingestLoop_break f fs hb]
    · by_cases hc : containsKey st.cache f.key
      · rw [ingestLoop_skip f fs hb hc]
        exact ingestLoop_np_mono cap fs { st with fileCount := st.fileCount + 1 }
      · rw [ingestLoop_proc f fs hb hc]
        refine Nat.le_trans ?_
          (ingestLoop_np_mono cap fs (processFile { st with fileCount := st.fileCount + 1 } f))
        simp [processFile]

theorem ingestLoop_saveCounts (cap : Nat) :
    ∀ (files : List FileEntry) (st : IngestState),
      (ingestLoop cap files st).saveCounts
        = st.saveCounts
          ++ (List.range' st.newProcessedFiles
                ((ingestLoop cap files st).newProcessedFiles - st.newProcessedFiles)).filter
              (fun i => i % 10 == 0)
  | [], st => by simp [ingestLoop]
  | f :: fs, st => by
    by_cases hb : cap < st.fileCount + 1
    · rw [ingestLoop_break f fs hb]
      simp
    · by_cases hc : containsKey st.cache f.key
      · rw [ingestLoop_skip f fs hb hc]
        simpa using ingestLoop_saveCounts cap fs { st with fileCount := st.fileCount + 1 }
      · rw [ingestLoop_proc f fs hb hc]
        have hrec := ingestLoop_saveCounts cap fs (processFile { st with fileCount := st.fileCount + 1 } f)
        have hmono := ingestLoop_np_mono cap fs (processFile { st with fileCount := st.fileCount + 1 } f)
        set R := ingestLoop cap fs (processFile { st with fileCount := st.fileCount + 1 } f) with hR
        have hnp' : (processFile { st with fileCount := st.fileCount + 1 } f).newProcessedFiles
            = st.newProcessedFiles + 1 := by simp [processFile]
        rw [hnp'] at hrec hmono
        have hd : R.newProcessedFiles - st.newProcessedFiles
            = (R.newProcessedFiles - (st.newProcessedFiles + 1)) + 1 := by omega
        rw [hd, List.range'_succ, List.filter_cons]
        by_cases hten : st.newProcessedFiles % 10 = 0
        · have hten' : (st.newProcessedFiles % 10 == 0) = true := by simp [hten]
          rw [hrec]
          simp only [processFile, hten', if_pos hten, if_true]
          simp [List.append_assoc]
        · have hten' : ¬ ((st.newProcessedFiles % 10 == 0) = true) := by simp [hten]
          rw [hrec]
          simp only [processFile, if_neg hten, if_neg hten']

theorem fetchAllContent_cache (cap : Nat) (files : List FileEntry)
    (cache0 : List (String × String)) :
    (fetchAllContent cap files cache0).cache
      = (ingestLoop cap files (initIngest cache0)).cache := by
  simp only [fetchAllContent, finalizeIngest]
  split <;> rfl

theorem fetchAllContent_np (cap : Nat) (files : List FileEntry)
    (cache0 : List (String × String)) :
    (fetchAllContent cap files cache0).newProcessedFiles
      = (ingestLoop cap files (initIngest cache0)).newProcessedFiles := by
  simp only [fetchAllContent, finalizeIngest]
  split <;> rfl

theorem fetchAllContent_fetched (cap : Nat) (files : List FileEntry)
    (cache0 : List (String × String)) :
    (fetchAllContent cap files cache0).fetchedIds
      = (ingestLoop cap files (initIngest cache0)).fetchedIds := by
  simp only [fetchAllContent, finalizeIngest]
  split <;> rfl

theorem fetchAllContent_fileCount (cap : Nat) (files : List FileEntry)
    (cache0 : List (String × String)) :
    (fetchAllContent cap files cache0).fileCount
      = (ingestLoop cap files (initIngest cache0)).fileCount := by
  simp only [fetchAllContent, finalizeIngest]
  split <;> rfl

theorem finalizeIngest_of_np_zero (st : IngestState) (h : st.newProcessedFiles = 0) :
    finalizeIngest st = st := by
  unfold finalizeIngest
  rw [h]
  simp

theorem finalizeIngest_cache (st : IngestState) :
    (finalizeIngest st).cache = st.cache := by
  simp only [finalizeIngest]
  split <;> rfl

theorem finalizeIngest_np (st : IngestState) :
    (finalizeIngest st).newProcessedFiles = st.newProcessedFiles := by
  simp only [finalizeIngest]
  split <;> rfl

theorem finalizeIngest_fetchedIds (st : IngestState) :
    (finalizeIngest st).fetchedIds = st.fetchedIds := by
  simp only [finalizeIngest]
  split <;> rfl

theorem finalizeIngest_set_fileCount (st : IngestState) (c : Nat) :
    finalizeIngest { st with fileCount := c }
      = { finalizeIngest st with fileCount := c } := by
  unfold finalizeIngest
  by_cases h : 0 < st.newProcessedFiles
  · rw [if_pos h, if_pos h]
  · rw [if_neg h, if_neg h]

theorem finalizeIngest_fileCount (st : IngestState) :
    (finalizeIngest st).fileCount = st.fileCount := by
  simp only [finalizeIngest]
  split <;> rfl

theorem finalizeIngest_saveCounts (st : IngestState) :
    (finalizeIngest st).saveCounts
      = st.saveCounts
        ++ (if 0 < st.newProcessedFiles then [st.newProcessedFiles] else []) := by
  simp only [finalizeIngest]
  split
  · rfl
  · simp

/-- A concrete family of files with pairwise distinct ids and keys, used as
inputs for witnesses and counterexamples. -/
def mkFiles (n : Nat) : List FileEntry :=
  (List.range n).map (fun i =>
    { id := "id" ++ toString i, key := "key" ++ toString i,
      passages := [{ content := "text", position := none }] })

/-! ### Claim C4: ingestion is idempotent -/

/-- Claim C4: a document whose key is already cached is skipped — the loop
state is unchanged apart from the iteration counter (no passage fetch, no
cache write, no save) — and consequently running ingestion twice over an
unchanged document list with no binding cap leaves the cache exactly as
after the first run: the second run processes zero new documents, fetches
no passages and persists nothing. -/
theorem ingestion_idempotent (cap : Nat) (files : List FileEntry)
    (hcap : files.length ≤ cap) :
    (∀ (f : FileEntry) (fs : List FileEntry) (st : IngestState),
        ¬ cap < st.fileCount + 1 → containsKey st.cache f.key →
        ingestLoop cap (f :: fs) st
          = ingestLoop cap fs { st with fileCount := st.fileCount + 1 })
    ∧ (fetchAllContent cap files (fetchAllContent cap files []).cache).cache
        = (fetchAllContent cap files []).cache
    ∧ (fetchAllContent cap files (fetchAllContent cap files []).cache).newProcessedFiles = 0
    ∧ (fetchAllContent cap files (fetchAllContent cap files []).cache).saves = []
    ∧ (fetchAllContent cap files (fetchAllContent cap files []).cache).fetchedIds = [] := by
  refine ⟨fun f fs st h1 h2 => ingestLoop_skip f fs h1 h2, ?_⟩
  have hall : ∀ f ∈ files, containsKey (fetchAllContent cap files []).cache f.key := by
    intro f hf
    rw [fetchAllContent_cache]
    exact ingestLoop_all_cached cap files (initIngest []) (by simpa [initIngest] using hcap) f hf
  obtain ⟨hc, hnp, hs, hsc, hfi⟩ :=
    ingestLoop_noop cap files (initIngest (fetchAllContent cap files []).cache)
      (fun f hf => by simpa [initIngest] using hall f hf)
  have hnp0 : (ingestLoop cap files
      (initIngest (fetchAllContent cap files []).cache)).newProcessedFiles = 0 := by
    simpa [initIngest] using hnp
  have hfin : fetchAllContent cap files (fetchAllContent cap files []).cache
      = ingestLoop cap files (initIngest (fetchAllContent cap files []).cache) :=
    finalizeIngest_of_np_zero _ hnp0
  rw [hfin, hc, hnp0, hs, hfi]
  exact ⟨rfl, rfl, rfl, rfl⟩

/-- Witness for C4: a one-document list under a non-binding cap. -/
theorem ingestion_idempotent_witness :
    ([({ id := "id1", key := "k1",
          passages := [{ content := "hello", position := none }] } : FileEntry)].length
        ≤ 999999)
    ∧ ((∀ (f : FileEntry) (fs : List FileEntry) (st : IngestState),
          ¬ 999999 < st.fileCount + 1 → containsKey st.cache f.key →
          ingestLoop 999999 (f :: fs) st
            = ingestLoop 999999 fs { st with fileCount := st.fileCount + 1 })
        ∧ (fetchAllContent 999999
              [{ id := "id1", key := "k1",
                 passages := [{ content := "hello", position := none }] }]
              (fetchAllContent 999999
                [{ id := "id1", key := "k1",
                   passages := [{ content := "hello", position := none }] }] []).cache).cache
            = (fetchAllContent 999999
                [{ id := "id1", key := "k1",
                   passages := [{ content := "hello", position := none }] }] []).cache
        ∧ (fetchAllContent 999999
              [{ id := "id1", key := "k1",
                 passages := [{ content := "hello", position := none }] }]
              (fetchAllContent 999999
                [{ id := "id1", key := "k1",
                   passages := [{ content := "hello", position := none }] }] []).cache).newProcessedFiles
            = 0
        ∧ (fetchAllContent 999999
              [{ id := "id1", key := "k1",
                 passages := [{ content := "hello", position := none }] }]
              (fetchAllContent 999999
                [{ id := "id1", key := "k1",
                   passages := [{ content := "hello", position := none }] }] []).cache).saves
            = []
        ∧ (fetchAllContent 999999
              [{ id := "id1", key := "k1",
                 passages := [{ content := "hello", position := none }] }]
              (fetchAllContent 999999
                [{ id := "id1", key := "k1",
                   passages := [{ content := "hello", position := none }] }] []).cache).fetchedIds
            = []) :=
  ⟨by decide, ingestion_idempotent 999999 _ (by decide)⟩

/-! ### Claim C5: cap enforcement is a deterministic cutoff -/

/-- Claim C5: when more documents are enumerated than the cap, the run is
(apart from the iteration counter) identical to a run over only the first
`MAX_FILES_TO_PROCESS` documents — same cache, same processed count, same
persisted snapshots, same passage fetches — the loop stops right at the
cap (`fileCount` ends at cap + 1), only the first `MAX_FILES_TO_PROCESS`
documents ever have passages fetched, and every later document whose key
was neither cached beforehand nor shared with a considered document stays
out of the cache. -/
theorem ingestion_cap_cutoff (files : List FileEntry) (cache0 : List (String × String))
    (hlen : MAX_FILES_TO_PROCESS < files.length) :
    (fetchAllContent MAX_FILES_TO_PROCESS files cache0).cache
      = (fetchAllContent MAX_FILES_TO_PROCESS (files.take MAX_FILES_TO_PROCESS) cache0).cache
    ∧ (fetchAllContent MAX_FILES_TO_PROCESS files cache0).newProcessedFiles
      = (fetchAllContent MAX_FILES_TO_PROCESS (files.take MAX_FILES_TO_PROCESS) cache0).newProcessedFiles
    ∧ (fetchAllContent MAX_FILES_TO_PROCESS files cache0).saves
      = (fetchAllContent MAX_FILES_TO_PROCESS (files.take MAX_FILES_TO_PROCESS) cache0).saves
    ∧ (fetchAllContent MAX_FILES_TO_PROCESS files cache0).fetchedIds
      = (fetchAllContent MAX_FILES_TO_PROCESS (files.take MAX_FILES_TO_PROCESS) cache0).fetchedIds
    ∧ (fetchAllContent MAX_FILES_TO_PROCESS files cache0).fileCount
      = MAX_FILES_TO_PROCESS + 1
    ∧ (∀ x ∈ (fetchAllContent MAX_FILES_TO_PROCESS files cache0).fetchedIds,
        x ∈ (files.take MAX_FILES_TO_PROCESS).map (·.id))
    ∧ (∀ f ∈ files.drop MAX_FILES_TO_PROCESS,
        ¬ containsKey cache0 f.key →
        f.key ∉ (files.take MAX_FILES_TO_PROCESS).map (·.key) →
        ¬ containsKey (fetchAllContent MAX_FILES_TO_PROCESS files cache0).cache f.key) := by
  have htake : (files.take MAX_FILES_TO_PROCESS).length = MAX_FILES_TO_PROCESS := by
    rw [List.length_take]
    omega
  have hinit : (initIngest cache0).fileCount + (files.take MAX_FILES_TO_PROCESS).length
      ≤ MAX_FILES_TO_PROCESS := by
    simp [initIngest, htake]
  have hdropne : files.drop MAX_FILES_TO_PROCESS ≠ [] := by
    intro h
    have := congrArg List.length h
    rw [List.length_drop] at this
    simp at this
    omega
  obtain ⟨g, gs, hgs⟩ := List.exists_cons_of_ne_nil hdropne
  have hsplit : ingestLoop MAX_FILES_TO_PROCESS files (initIngest cache0)
      = ingestLoop MAX_FILES_TO_PROCESS (files.drop MAX_FILES_TO_PROCESS)
          (ingestLoop MAX_FILES_TO_PROCESS (files.take MAX_FILES_TO_PROCESS)
            (initIngest cache0)) := by
    conv_lhs => rw [← List.take_append_drop MAX_FILES_TO_PROCESS files]
    exact ingestLoop_append MAX_FILES_TO_PROCESS _ _ _ hinit
  have hfcT : (ingestLoop MAX_FILES_TO_PROCESS (files.take MAX_FILES_TO_PROCESS)
      (initIngest cache0)).fileCount = MAX_FILES_TO_PROCESS := by
    rw [ingestLoop_fileCount MAX_FILES_TO_PROCESS _ _ hinit]
    simp [initIngest, htake]
  have hblt : MAX_FILES_TO_PROCESS
      < (ingestLoop MAX_FILES_TO_PROCESS (files.take MAX_FILES_TO_PROCESS)
          (initIngest cache0)).fileCount + 1 := by
    rw [hfcT]
    omega
  have hbreak : ingestLoop MAX_FILES_TO_PROCESS (files.drop MAX_FILES_TO_PROCESS)
      (ingestLoop MAX_FILES_TO_PROCESS (files.take MAX_FILES_TO_PROCESS) (initIngest cache0))
      = { ingestLoop MAX_FILES_TO_PROCESS (files.take MAX_FILES_TO_PROCESS) (initIngest cache0)
            with fileCount := (ingestLoop MAX_FILES_TO_PROCESS (files.take MAX_FILES_TO_PROCESS)
              (initIngest cache0)).fileCount + 1 } := by
    rw [hgs]
    exact ingestLoop_break g gs hblt
  have hfull : fetchAllContent MAX_FILES_TO_PROCESS files cache0
      = finalizeIngest
          { ingestLoop MAX_FILES_TO_PROCESS (files.take MAX_FILES_TO_PROCESS) (initIngest cache0)
              with fileCount := (ingestLoop MAX_FILES_TO_PROCESS (files.take MAX_FILES_TO_PROCESS)
                (initIngest cache0)).fileCount + 1 } := by
    show finalizeIngest (ingestLoop MAX_FILES_TO_PROCESS files (initIngest cache0)) = _
    rw [hsplit, hbreak]
  have htkrun : fetchAllContent MAX_FILES_TO_PROCESS (files.take MAX_FILES_TO_PROCESS) cache0
      = finalizeIngest
          (ingestLoop MAX_FILES_TO_PROCESS (files.take MAX_FILES_TO_PROCESS)
            (initIngest cache0)) := rfl
  rw [hfull, htkrun, finalizeIngest_set_fileCount]
  refine ⟨rfl, rfl, rfl, rfl, ?_, ?_, ?_⟩
  · show (ingestLoop MAX_FILES_TO_PROCESS (List.take MAX_FILES_TO_PROCESS files)
        (initIngest cache0)).fileCount + 1 = MAX_FILES_TO_PROCESS + 1
    rw [hfcT]
  · intro x hx
    simp only [finalizeIngest_fetchedIds] at hx
    rcases ingestLoop_fetched MAX_FILES_TO_PROCESS _ _ x hx with h | h
    · simp [initIngest] at h
    · exact h
  · intro f _ hnc0 hnt hmem
    simp only [finalizeIngest_cache] at hmem
    rcases ingestLoop_cache_keys MAX_FILES_TO_PROCESS _ _ f.key hmem with h | h
    · exact hnc0 (by simpa [initIngest] using h)
    · exact hnt h

/-- Witness for C5: 150 distinct documents against the cap of 100. -/
theorem ingestion_cap_cutoff_witness :
    (MAX_FILES_TO_PROCESS < (mkFiles 150).length)
    ∧ ((fetchAllContent MAX_FILES_TO_PROCESS (mkFiles 150) []).cache
        = (fetchAllContent MAX_FILES_TO_PROCESS ((mkFiles 150).take MAX_FILES_TO_PROCESS) []).cache
      ∧ (fetchAllContent MAX_FILES_TO_PROCESS (mkFiles 150) []).newProcessedFiles
        = (fetchAllContent MAX_FILES_TO_PROCESS ((mkFiles 150).take MAX_FILES_TO_PROCESS) []).newProcessedFiles
      ∧ (fetchAllContent MAX_FILES_TO_PROCESS (mkFiles 150) []).saves
        = (fetchAllContent MAX_FILES_TO_PROCESS ((mkFiles 150).take MAX_FILES_TO_PROCESS) []).saves
      ∧ (fetchAllContent MAX_FILES_TO_PROCESS (mkFiles 150) []).fetchedIds
        = (fetchAllContent MAX_FILES_TO_PROCESS ((mkFiles 150).take MAX_FILES_TO_PROCESS) []).fetchedIds
      ∧ (fetchAllContent MAX_FILES_TO_PROCESS (mkFiles 150) []).fileCount
        = MAX_FILES_TO_PROCESS + 1
      ∧ (∀ x ∈ (fetchAllContent MAX_FILES_TO_PROCESS (mkFiles 150) []).fetchedIds,
          x ∈ ((mkFiles 150).take MAX_FILES_TO_PROCESS).map (·.id))
      ∧ (∀ f ∈ (mkFiles 150).drop MAX_FILES_TO_PROCESS,
          ¬ containsKey [] f.key →
          f.key ∉ ((mkFiles 150).take MAX_FILES_TO_PROCESS).map (·.key) →
          ¬ containsKey (fetchAllContent MAX_FILES_TO_PROCESS (mkFiles 150) []).cache f.key)) :=
  ⟨by simp [mkFiles, MAX_FILES_TO_PROCESS],
    ingestion_cap_cutoff (mkFiles 150) [] (by simp [mkFiles, MAX_FILES_TO_PROCESS])⟩

/-! ### Claim C6: checkpoint cadence -/

/-- Claim C6 (corrected): because the source tests
`newProcessedFiles++ % 10 === 0` with a post-increment, the in-loop
checkpoints fire while the counter reads 0, 10, 20, … — that is after the
1st, 11th, 21st, … newly processed document, not after the 10th, 20th, … —
and the end-of-run persist (recording the final count) happens exactly
when at least one new document was processed.  `saveCounts` records the
pre-increment counter at each in-loop save and the final count at the
end-of-run save. -/
theorem checkpoint_schedule (cap : Nat) (files : List FileEntry)
    (cache0 : List (String × String)) :
    (fetchAllContent cap files cache0).saveCounts
      = ((List.range (fetchAllContent cap files cache0).newProcessedFiles).filter
          (fun i => i % 10 == 0))
        ++ (if 0 < (fetchAllContent cap files cache0).newProcessedFiles
            then [(fetchAllContent cap files cache0).newProcessedFiles] else []) := by
  have hloop := ingestLoop_saveCounts cap files (initIngest cache0)
  have hnp := fetchAllContent_np cap files cache0
  have hsc := finalizeIngest_saveCounts (ingestLoop cap files (initIngest cache0))
  have hsc' : (fetchAllContent cap files cache0).saveCounts
      = (ingestLoop cap files (initIngest cache0)).saveCounts
        ++ (if 0 < (ingestLoop cap files (initIngest cache0)).newProcessedFiles
            then [(ingestLoop cap files (initIngest cache0)).newProcessedFiles] else []) := hsc
  rw [hsc', hloop, hnp]
  simp only [initIngest, Nat.sub_zero]
  rw [← List.range_eq_range']
  simp

set_option maxRecDepth 8000 in
/-- Counterexample to claim C6 as stated: ingesting 10 fresh documents from
an empty cache persists snapshots of sizes `[1, 10]` — the in-loop
checkpoint fires after the 1st newly processed document (and would next
fire after the 11th), not after every 10th; so not every persisted
snapshot holds a multiple of 10 documents or the final cache. -/
theorem checkpoint_cadence_counterexample :
    (fetchAllContent 100 (mkFiles 10) []).saves.map List.length = [1, 10]
    ∧ ¬ (∀ s ∈ (fetchAllContent 100 (mkFiles 10) []).saves,
          s.length % 10 = 0
          ∨ s.length = (fetchAllContent 100 (mkFiles 10) []).cache.length) := by
  decide

/-! ### Lemmas about JSON escaping and the persist/restore pair -/

theorem hexVal_hexDigitChar : ∀ n < 16, hexVal (hexDigitChar n) = some n := by
  decide

theorem hexDigitChar_ne_nl : ∀ n < 16, hexDigitChar n ≠ '\n' := by
  decide

theorem parseStringBody_quote (rest : List Char) :
    parseStringBody ('"' :: rest) = some ([], rest) := by
  rw [parseStringBody.eq_def]
  rfl

theorem parseStringBody_esc (e u : Char) (hu : unescape1 e = some u) (he : e ≠ 'u')
    (T : List Char) :
    parseStringBody ('\\' :: e :: T)
      = (parseStringBody T).map (fun sr => (u :: sr.1, sr.2)) := by
  rw [parseStringBody.eq_def]
  show (match e :: T with
      | 'u' :: h1 :: h2 :: h3 :: h4 :: rest3 =>
        match hexVal h1, hexVal h2, hexVal h3, hexVal h4 with
        | some a, some b, some c2, some d =>
          (parseStringBody rest3).map
            (fun sr => (Char.ofNat (a * 4096 + b * 256 + c2 * 16 + d) :: sr.1, sr.2))
        | _, _, _, _ => none
      | e' :: rest2 =>
        match unescape1 e' with
        | some u' => (parseStringBody rest2).map (fun sr => (u' :: sr.1, sr.2))
        | none => none
      | [] => none) = (parseStringBody T).map (fun sr => (u :: sr.1, sr.2))
  split
  · rename_i h1' h2' h3' h4' rest3' h
    rw [List.cons.injEq] at h
    exact absurd h.1 he
  · rename_i e' rest2 h
    rw [List.cons.injEq] at h
    obtain ⟨he', hT⟩ := h
    subst he'
    subst hT
    rw [hu]
  · rename_i h
    exact (List.cons_ne_nil _ _ h).elim

theorem parseStringBody_hex (d1 d2 : Char) (T : List Char) :
    parseStringBody ('\\' :: 'u' :: '0' :: '0' :: d1 :: d2 :: T)
      = (match hexVal '0', hexVal '0', hexVal d1, hexVal d2 with
        | some a, some b, some c2, some d =>
          (parseStringBody T).map
            (fun sr => (Char.ofNat (a * 4096 + b * 256 + c2 * 16 + d) :: sr.1, sr.2))
        | _, _, _, _ => none) := by
  rw [parseStringBody.eq_def]
  rfl

theorem parseStringBody_other (c : Char) (h1 : c ≠ '"') (h2 : c ≠ '\\')
    (h3 : ¬ c.toNat < 32) (rest : List Char) :
    parseStringBody (c :: rest)
      = (parseStringBody rest).map (fun sr => (c :: sr.1, sr.2)) := by
  rw [parseStringBody.eq_def]
  show (if c = '"' then some (([] : List Char), rest)
    else if c = '\\' then
      (match rest with
        | 'u' :: h1 :: h2 :: h3 :: h4 :: rest3 =>
          match hexVal h1, hexVal h2, hexVal h3, hexVal h4 with
          | some a, some b, some c2, some d =>
            (parseStringBody rest3).map
              (fun sr => (Char.ofNat (a * 4096 + b * 256 + c2 * 16 + d) :: sr.1, sr.2))
          | _, _, _, _ => none
        | e :: rest2 =>
          match unescape1 e with
          | some u => (parseStringBody rest2).map (fun sr => (u :: sr.1, sr.2))
          | none => none
        | [] => none)
    else if c.toNat < 32 then none
    else (parseStringBody rest).map (fun sr => (c :: sr.1, sr.2)))
    = (parseStringBody rest).map (fun sr => (c :: sr.1, sr.2))
  rw [if_neg h1, if_neg h2, if_neg h3]

theorem parseStringBody_escape :
    ∀ (s rest : List Char),
      parseStringBody (escapeString s ++ '"' :: rest) = some (s, rest)
  | [], rest => by
    rw [show escapeString [] = [] from rfl, List.nil_append]
    exact parseStringBody_quote rest
  | c :: s, rest => by
    have hesc : escapeString (c :: s) = escapeChar c ++ escapeString s := by
      simp [escapeString]
    rw [hesc, List.append_assoc]
    by_cases h1 : c = '"'
    · subst h1
      rw [show escapeChar '"' = ['\\', '"'] from rfl]
      simp only [List.cons_append, List.nil_append]
      rw [parseStringBody_esc '"' '"' rfl (by decide), parseStringBody_escape s rest]
      rfl
    by_cases h2 : c = '\\'
    · subst h2
      rw [show escapeChar '\\' = ['\\', '\\'] from rfl]
      simp only [List.cons_append, List.nil_append]
      rw [parseStringBody_esc '\\' '\\' rfl (by decide), parseStringBody_escape s rest]
      rfl
    by_cases h3 : c.toNat = 8
    · have hc : c = Char.ofNat 8 := by rw [← Char.ofNat_toNat c, h3]
      subst hc
      rw [show escapeChar (Char.ofNat 8) = ['\\', 'b'] from rfl]
      simp only [List.cons_append, List.nil_append]
      rw [parseStringBody_esc 'b' (Char.ofNat 8) rfl (by decide), parseStringBody_escape s rest]
      rfl
    by_cases h4 : c.toNat = 12
    · have hc : c = Char.ofNat 12 := by rw [← Char.ofNat_toNat c, h4]
      subst hc
      rw [show escapeChar (Char.ofNat 12) = ['\\', 'f'] from rfl]
      simp only [List.cons_append, List.nil_append]
      rw [parseStringBody_esc 'f' (Char.ofNat 12) rfl (by decide), parseStringBody_escape s rest]
      rfl
    by_cases h5 : c = '\n'
    · subst h5
      rw [show escapeChar '\n' = ['\\', 'n'] from rfl]
      simp only [List.cons_append, List.nil_append]
      rw [parseStringBody_esc 'n' '\n' rfl (by decide), parseStringBody_escape s rest]
      rfl
    by_cases h6 : c.toNat = 13
    · have hc : c = Char.ofNat 13 := by rw [← Char.ofNat_toNat c, h6]
      subst hc
      rw [show escapeChar (Char.ofNat 13) = ['\\', 'r'] from rfl]
      simp only [List.cons_append, List.nil_append]
      rw [parseStringBody_esc 'r' (Char.ofNat 13) rfl (by decide), parseStringBody_escape s rest]
      rfl
    by_cases h7 : c.toNat = 9
    · have hc : c = Char.ofNat 9 := by rw [← Char.ofNat_toNat c, h7]
      subst hc
      rw [show escapeChar (Char.ofNat 9) = ['\\', 't'] from rfl]
      simp only [List.cons_append, List.nil_append]
      rw [parseStringBody_esc 't' (Char.ofNat 9) rfl (by decide), parseStringBody_escape s rest]
      rfl
    by_cases h8 : c.toNat < 32
    · have he : escapeChar c
          = ['\\', 'u', '0', '0', hexDigitChar (c.toNat / 16), hexDigitChar (c.toNat % 16)] := by
        simp [escapeChar, h1, h2, h3, h4, h5, h6, h7, h8]
      rw [he]
      simp only [List.cons_append, List.nil_append]
      rw [parseStringBody_hex]
      rw [hexVal_hexDigitChar (c.toNat / 16) (by omega),
        hexVal_hexDigitChar (c.toNat % 16) (by omega)]
      rw [show hexVal '0' = some 0 from rfl]
      show (parseStringBody (escapeString s ++ '"' :: rest)).map
          (fun sr =>
            (Char.ofNat (0 * 4096 + 0 * 256 + c.toNat / 16 * 16 + c.toNat % 16) :: sr.1,
              sr.2)) = some (c :: s, rest)
      rw [parseStringBody_escape s rest]
      have harith : 0 * 4096 + 0 * 256 + c.toNat / 16 * 16 + c.toNat % 16 = c.toNat := by
        omega
      rw [harith, Char.ofNat_toNat]
      rfl
    · have he : escapeChar c = [c] := by
        simp [escapeChar, h1, h2, h3, h4, h5, h6, h7, h8]
      rw [he]
      simp only [List.cons_append, List.nil_append]
      rw [parseStringBody_other c h1 h2 h8, parseStringBody_escape s rest]
      rfl


theorem skipWs_cons_of_not {c : Char} (h : isJsonWs c = false) (l : List Char) :
    skipWs (c :: l) = c :: l := by
  simp [skipWs, List.dropWhile_cons, h]

theorem expectChar_lit (c : Char) (h : isJsonWs c = false) (l : List Char) :
    expectChar c (c :: l) = some l := by
  unfold expectChar
  rw [skipWs_cons_of_not h]
  show (if c = c then some l else none) = some l
  rw [if_pos rfl]

theorem parseJstring_escape (s : List Char) (R : List Char) :
    parseJstring ('"' :: (escapeString s ++ '"' :: R)) = some (s, R) := by
  unfold parseJstring
  rw [skipWs_cons_of_not (by decide)]
  show parseStringBody (escapeString s ++ '"' :: R) = some (s, R)
  exact parseStringBody_escape s R

theorem parseMember_shape (name val : List Char) (R : List Char) :
    parseMember
        ('"' :: (escapeString name
          ++ '"' :: (':' :: '"' :: (escapeString val ++ '"' :: R))))
      = some (name, val, R) := by
  unfold parseMember
  rw [show (':' :: '"' :: (escapeString val ++ '"' :: R))
      = ':' :: ('"' :: (escapeString val ++ '"' :: R)) from rfl]
  rw [parseJstring_escape name (':' :: ('"' :: (escapeString val ++ '"' :: R)))]
  rw [Option.some_bind]
  rw [show ((name, ':' :: ('"' :: (escapeString val ++ '"' :: R))) :
      List Char × List Char).2 = ':' :: ('"' :: (escapeString val ++ '"' :: R)) from rfl]
  rw [expectChar_lit ':' (by decide)]
  rw [Option.some_bind]
  rw [parseJstring_escape val R]
  rfl

theorem parseRecord_serializeRecord (k v : String) :
    parseRecord (serializeRecord k v) = some (k, v) := by
  have hser : serializeRecord k v
      = '{' :: ('"' :: (escapeString ['k', 'e', 'y']
          ++ '"' :: (':' :: '"' :: (escapeString k.data
            ++ '"' :: (',' :: ('"' :: (escapeString ['c', 'o', 'n', 't', 'e', 'n', 't']
              ++ '"' :: (':' :: '"' :: (escapeString v.data
                ++ '"' :: ('}' :: [])))))))))) := by
    simp [serializeRecord]
    rfl
  rw [hser]
  unfold parseRecord
  rw [expectChar_lit '{' (by decide)]
  rw [Option.some_bind]
  rw [parseMember_shape ['k', 'e', 'y'] k.data]
  rw [Option.some_bind]
  rw [show ((['k', 'e', 'y'], k.data,
      ',' :: ('"' :: (escapeString ['c', 'o', 'n', 't', 'e', 'n', 't']
        ++ '"' :: (':' :: '"' :: (escapeString v.data ++ '"' :: ('}' :: [])))))) :
      List Char × List Char × List Char).2.2
    = ',' :: ('"' :: (escapeString ['c', 'o', 'n', 't', 'e', 'n', 't']
        ++ '"' :: (':' :: '"' :: (escapeString v.data ++ '"' :: ('}' :: []))))) from rfl]
  rw [expectChar_lit ',' (by decide)]
  rw [Option.some_bind]
  rw [parseMember_shape ['c', 'o', 'n', 't', 'e', 'n', 't'] v.data ('}' :: [])]
  rw [Option.some_bind]
  rw [show ((['c', 'o', 'n', 't', 'e', 'n', 't'], v.data, '}' :: []) :
      List Char × List Char × List Char).2.2 = '}' :: [] from rfl]
  rw [expectChar_lit '}' (by decide)]
  rw [Option.some_bind]
  rfl

theorem escapeChar_ne_nl (c : Char) : ∀ x ∈ escapeChar c, x ≠ '\n' := by
  intro x hx
  by_cases h1 : c = '"'
  · subst h1
    simp [escapeChar] at hx
    rcases hx with rfl | rfl <;> decide
  by_cases h2 : c = '\\'
  · subst h2
    simp [escapeChar] at hx
    rcases hx with rfl | rfl <;> decide
  by_cases h3 : c.toNat = 8
  · have hc : c = Char.ofNat 8 := by rw [← Char.ofNat_toNat c, h3]
    subst hc
    simp [escapeChar] at hx
    rcases hx with rfl | rfl <;> decide
  by_cases h4 : c.toNat = 12
  · have hc : c = Char.ofNat 12 := by rw [← Char.ofNat_toNat c, h4]
    subst hc
    simp [escapeChar] at hx
    rcases hx with rfl | rfl <;> decide
  by_cases h5 : c = '\n'
  · subst h5
    simp [escapeChar] at hx
    rcases hx with rfl | rfl <;> decide
  by_cases h6 : c.toNat = 13
  · have hc : c = Char.ofNat 13 := by rw [← Char.ofNat_toNat c, h6]
    subst hc
    simp [escapeChar] at hx
    rcases hx with rfl | rfl <;> decide
  by_cases h7 : c.toNat = 9
  · have hc : c = Char.ofNat 9 := by rw [← Char.ofNat_toNat c, h7]
    subst hc
    simp [escapeChar] at hx
    rcases hx with rfl | rfl <;> decide
  by_cases h8 : c.toNat < 32
  · have he : escapeChar c
        = ['\\', 'u', '0', '0', hexDigitChar (c.toNat / 16), hexDigitChar (c.toNat % 16)] := by
      simp [escapeChar, h1, h2, h3, h4, h5, h6, h7, h8]
    rw [he] at hx
    simp only [List.mem_cons, List.not_mem_nil, or_false] at hx
    rcases hx with rfl | rfl | rfl | rfl | rfl | rfl
    · decide
    · decide
    · decide
    · decide
    · exact hexDigitChar_ne_nl (c.toNat / 16) (by omega)
    · exact hexDigitChar_ne_nl (c.toNat % 16) (by omega)
  · have he : escapeChar c = [c] := by
      simp [escapeChar, h1, h2, h3, h4, h5, h6, h7, h8]
    rw [he] at hx
    simp at hx
    subst hx
    intro hnl
    subst hnl
    exact h8 (by decide)

theorem escapeString_ne_nl (s : List Char) : ∀ x ∈ escapeString s, x ≠ '\n' := by
  intro x hx
  unfold escapeString at hx
  rw [List.mem_flatten] at hx
  obtain ⟨l, hl, hxl⟩ := hx
  obtain ⟨c, _, rfl⟩ := List.mem_map.mp hl
  exact escapeChar_ne_nl c x hxl

theorem serializeRecord_ne_nl (k v : String) : ∀ x ∈ serializeRecord k v, x ≠ '\n' := by
  intro x hx
  simp only [serializeRecord, List.append_assoc, List.mem_append] at hx
  rcases hx with h | h | h | h | h
  · simp at h
    rcases h with rfl | rfl | rfl | rfl | rfl | rfl | rfl | rfl <;> decide
  · exact escapeString_ne_nl k.data x h
  · simp at h
    rcases h with rfl | rfl | rfl | rfl | rfl | rfl | rfl | rfl | rfl | rfl | rfl | rfl | rfl <;>
      decide
  · exact escapeString_ne_nl v.data x h
  · simp at h
    rcases h with rfl | rfl <;> decide

theorem serializeRecord_not_empty (k v : String) :
    (serializeRecord k v).isEmpty = false := rfl

theorem splitNl_no_nl : ∀ (l : List Char), (∀ c ∈ l, c ≠ '\n') → splitNl l = [l]
  | [], _ => rfl
  | c :: rest, h => by
    have hc : ¬ c = '\n' := h c (List.mem_cons_self c rest)
    have hr := splitNl_no_nl rest (fun x hx => h x (List.mem_cons_of_mem c hx))
    simp only [splitNl]
    rw [if_neg hc, hr]

theorem splitNl_append_nl : ∀ (l t : List Char), (∀ c ∈ l, c ≠ '\n') →
    splitNl (l ++ '\n' :: t) = l :: splitNl t
  | [], t, _ => by simp [splitNl]
  | c :: rest, t, h => by
    have hc : ¬ c = '\n' := h c (List.mem_cons_self c rest)
    have hr := splitNl_append_nl rest t (fun x hx => h x (List.mem_cons_of_mem c hx))
    simp only [List.cons_append, splitNl, List.append_eq]
    rw [if_neg hc, hr]

theorem splitNl_joinNl : ∀ (lines : List (List Char)),
    (∀ l ∈ lines, ∀ c ∈ l, c ≠ '\n') → lines ≠ [] →
    splitNl (joinNl lines) = lines
  | [], _, hne => absurd rfl hne
  | [l], h, _ => by
    rw [show joinNl [l] = l from rfl]
    exact splitNl_no_nl l (h l (by simp))
  | l :: l2 :: ls, h, _ => by
    rw [show joinNl (l :: l2 :: ls) = l ++ '\n' :: joinNl (l2 :: ls) from rfl]
    rw [splitNl_append_nl l _ (h l (by simp))]
    rw [splitNl_joinNl (l2 :: ls) (fun x hx => h x (List.mem_cons_of_mem l hx)) (by simp)]

theorem restoreLines_serialized :
    ∀ (m : List (String × String)) (acc : List (String × String)),
      (m.map Prod.fst).Nodup →
      (∀ k ∈ m.map Prod.fst, ¬ containsKey acc k) →
      restoreLines (m.map (fun kv => serializeRecord kv.1 kv.2)) acc = (acc ++ m, false)
  | [], acc, _, _ => by simp [restoreLines]
  | (k, v) :: m, acc, hnd, hdis => by
    rw [List.map_cons]
    have hnemp : ¬ ((serializeRecord k v).isEmpty = true) := by
      rw [serializeRecord_not_empty]
      exact Bool.false_ne_true
    simp only [restoreLines]
    rw [if_neg hnemp, parseRecord_serializeRecord k v]
    have hknotin : ¬ containsKey acc k := hdis k (by simp)
    rw [show (match some (k, v) with
        | some kv => restoreLines (m.map (fun kv => serializeRecord kv.1 kv.2)) (mapSet acc kv.1 kv.2)
        | none => (acc, true))
      = restoreLines (m.map (fun kv => serializeRecord kv.1 kv.2)) (mapSet acc k v) from rfl]
    rw [mapSet_of_not_contains v hknotin]
    have hnd' : (m.map Prod.fst).Nodup := by
      rw [List.map_cons] at hnd
      exact hnd.of_cons
    have hdis' : ∀ k' ∈ m.map Prod.fst, ¬ containsKey (acc ++ [(k, v)]) k' := by
      intro k' hk'
      intro hcontra
      simp only [containsKey, List.map_append, List.mem_append] at hcontra
      rcases hcontra with hacc | hsing
      · exact hdis k' (by simp [hk']) hacc
      · have hkk : k' = k := by simpa using hsing
        subst hkk
        rw [List.map_cons] at hnd
        rw [List.nodup_cons] at hnd
        exact hnd.1 hk'
    rw [restoreLines_serialized m (acc ++ [(k, v)]) hnd' hdis']
    rw [List.append_assoc]
    rfl

/-! ### Claim C7: persist/restore round trip -/

/-- Claim C7: for every in-memory cache (a JS `Map`, so keys are distinct),
the blob written by `saveCache` — one `JSON.stringify({key, content})`
record per line — restores, through the line-splitting and record-parsing
of `restoreCache`, to exactly the same `(key, content)` entries, with no
error swallowed along the way. -/
theorem saveCache_restoreCache_roundtrip (m : List (String × String))
    (h : (m.map Prod.fst).Nodup) :
    restoreCache (.ok (saveCacheText m)) = m
    ∧ restoreThrew (.ok (saveCacheText m)) = false := by
  cases m with
  | nil => exact ⟨rfl, rfl⟩
  | cons kv m' =>
    have hlines : ∀ l ∈ ((kv :: m').map (fun kv => serializeRecord kv.1 kv.2)),
        ∀ c ∈ l, c ≠ '\n' := by
      intro l hl
      obtain ⟨p, _, rfl⟩ := List.mem_map.mp hl
      exact serializeRecord_ne_nl p.1 p.2
    have hsplit : splitNl (saveCacheText (kv :: m')).data
        = (kv :: m').map (fun kv => serializeRecord kv.1 kv.2) := by
      show splitNl (joinNl _) = _
      exact splitNl_joinNl _ hlines (by simp)
    have hres := restoreLines_serialized (kv :: m') [] h (by simp [containsKey])
    refine ⟨?_, ?_⟩
    · show (restoreLines (splitNl (saveCacheText (kv :: m')).data) []).1 = kv :: m'
      rw [hsplit, hres]
      rfl
    · show (restoreLines (splitNl (saveCacheText (kv :: m')).data) []).2 = false
      rw [hsplit, hres]

/-- Witness for C7 at a concrete two-entry cache whose contents need JSON
escaping (a quote, a backslash, a newline and a control character). -/
theorem saveCache_restoreCache_roundtrip_witness :
    (([("a", "b c"), ("d", "e\n\"\\\x01f")].map Prod.fst).Nodup)
    ∧ (restoreCache (.ok (saveCacheText [("a", "b c"), ("d", "e\n\"\\\x01f")]))
        = [("a", "b c"), ("d", "e\n\"\\\x01f")]
      ∧ restoreThrew (.ok (saveCacheText [("a", "b c"), ("d", "e\n\"\\\x01f")])) = false) :=
  ⟨by decide, saveCache_restoreCache_roundtrip _ (by decide)⟩

/-! ### Claim C8: cache restore never raises and cold-starts empty -/

theorem restoreLines_bad :
    ∀ (lines : List (List Char)) (acc : List (String × String)),
      (∀ l ∈ lines, l = [] ∨ parseRecord l = none) →
      (restoreLines lines acc).1 = acc
  | [], _, _ => rfl
  | l :: ls, acc, h => by
    by_cases hemp : l.isEmpty
    · simp only [restoreLines]
      rw [if_pos hemp]
      exact restoreLines_bad ls acc (fun x hx => h x (List.mem_cons_of_mem _ hx))
    · rcases h l (List.mem_cons_self l ls) with rfl | hp
      · exact absurd rfl hemp
      · simp only [restoreLines]
        rw [if_neg hemp, hp]

theorem parseRecord_of_unparseable {l : List Char} (h : lineUnparseable l = true) :
    parseRecord l = none := by
  unfold lineUnparseable at h
  unfold parseRecord expectChar
  cases hs : skipWs l with
  | nil => rfl
  | cons c r =>
    rw [hs] at h
    have h' : (!(jsonValueStart c)) = true := h
    have hc : ¬ c = '{' := by
      intro he
      subst he
      simp [jsonValueStart] at h'
    show ((if c = '{' then some r else none).bind _) = none
    rw [if_neg hc]
    rfl

/-- Claim C8 (corrected): `restoreCache` swallows every failure — a missing
key or a failed fetch leaves the cache empty, and so does a blob every one
of whose lines is empty or cannot even begin a JSON value (so `JSON.parse`
throws on the first line the loop reaches: the cold-start case).  However
a blob whose first records parse and whose later content is garbage is not
left empty: the successfully parsed prefix stays in the cache (see
`restoreCache_partial_parse_counterexample`). -/
theorem restoreCache_cold_start :
    restoreCache .missing = [] ∧ restoreCache .fetchFailed = []
    ∧ (∀ text : String,
        (∀ l ∈ splitNl text.data, l = [] ∨ lineUnparseable l = true) →
        restoreCache (.ok text) = []) := by
  refine ⟨rfl, rfl, ?_⟩
  intro text h
  show (restoreLines (splitNl text.data) []).1 = []
  refine restoreLines_bad (splitNl text.data) [] ?_
  intro l hl
  rcases h l hl with hemp | hbad
  · exact Or.inl hemp
  · exact Or.inr (parseRecord_of_unparseable hbad)

/-- Witness for C8: a wholly unparseable blob restores to the empty cache. -/
theorem restoreCache_cold_start_witness :
    restoreCache (.ok "garbage") = [] :=
  restoreCache_cold_start.2.2 "garbage" (by decide)

/-- Counterexample to claim C8 as stated: a blob with one good record
followed by garbage is "unparseable blob content" (the restore body does
throw, as `restoreThrew` records), yet the cache is not left empty — the
parsed prefix survives. -/
theorem restoreCache_partial_parse_counterexample :
    restoreThrew (.ok "\x7b\"key\":\"a\",\"content\":\"b\"\x7d\ngarbage") = true
    ∧ restoreCache (.ok "\x7b\"key\":\"a\",\"content\":\"b\"\x7d\ngarbage") = [("a", "b")]
    ∧ restoreCache (.ok "\x7b\"key\":\"a\",\"content\":\"b\"\x7d\ngarbage") ≠ [] := by
  refine ⟨?_, ?_, ?_⟩ <;> decide

end KbPipeline

